import Mathlib

/-!
Verification of the linked-editing-ranges engine
(`crates/editor/src/linked_editing_ranges.rs`).

The development shallowly embeds the Rust source:

* `Anchor`s are opaque buffer positions, modelled as `Nat` identities; a
  `Snapshot` resolves an anchor to an offset, and two anchors are compared
  by comparing their resolved offsets (`Anchor.cmp`, matching
  `text::Anchor::cmp(&self, other, snapshot)`).
* `LinkedEditingRanges` embeds the tuple struct
  `LinkedEditingRanges(HashMap<BufferId, Vec<(Range<Anchor>, Vec<Range<Anchor>>)>>)`;
  the `HashMap` is modelled as an association list whose iteration order is
  its insertion order.
* `Rust`'s `slice::partition_point` (a binary search) is embedded as
  `partitionPoint`, written with explicit fuel so that it is structurally
  recursive and kernel-computable; `fuel = length` always suffices because
  the searched interval shrinks at every probe.
* the asynchronous refresh pipeline `refresh_linked_ranges` is embedded as a
  pure function from a `RefreshEnv` (the external collaborators: selections,
  anchor resolution, snapshots, the linked-edit provider, and the
  rename-pending flag sampled at cycle start and at install time) and a
  prior index to the resulting index together with the list of provider
  requests issued by the cycle.
-/

namespace LinkedEditing

/-- `text::BufferId`, an opaque buffer identifier. -/
abbrev BufferId := Nat

/-- `text::Anchor`, an opaque edit-surviving position; its identity is
modelled as a `Nat`. -/
abbrev Anchor := Nat

/-- `text::BufferSnapshot`, modelled by what the claims need of it: the
resolution of anchors to offsets, against which anchors are compared. -/
abbrev Snapshot := Anchor → Nat

/-- `text::Anchor::cmp(&self, other, snapshot)`: anchors compare as their
offsets resolved under the snapshot. -/
def Anchor.cmp (a b : Anchor) (s : Snapshot) : Ordering :=
  compare (s a) (s b)

/-- `std::ops::Range<text::Anchor>`. -/
structure AnchorRange where
  start : Anchor
  «end» : Anchor
deriving DecidableEq, Repr

/-- Modelled from the spec: `text::AnchorRangeExt::cmp` (the `text` crate is
not among the sources) orders two anchor ranges by `start` under the
snapshot, with `end` as the tie-breaker. -/
def AnchorRange.cmp (a b : AnchorRange) (s : Snapshot) : Ordering :=
  (Anchor.cmp a.start b.start s).then (Anchor.cmp a.«end» b.«end» s)

/-- One entry of a buffer's list: `(Range<Anchor>, Vec<Range<Anchor>>)` —
a primary range together with its sibling ranges. -/
abbrev LinkGroup := AnchorRange × List AnchorRange

/-- `LinkedEditingRanges(HashMap<BufferId, Vec<(Range<Anchor>, Vec<Range<Anchor>>)>>)`.
The `HashMap` is an association list kept in insertion order. -/
structure LinkedEditingRanges where
  entries : List (BufferId × List LinkGroup)
deriving DecidableEq, Repr

/-- `HashMap::get`: the value of the first (unique) entry with the key. -/
def findEntries (idx : List (BufferId × List LinkGroup)) (id : BufferId) :
    Option (List LinkGroup) :=
  (idx.find? (fun e => e.1 == id)).map (fun e => e.2)

/-- `self.0.get(&id)` on the index. -/
def LinkedEditingRanges.find (self : LinkedEditingRanges) (id : BufferId) :
    Option (List LinkGroup) :=
  findEntries self.entries id

/-- The loop of `slice::partition_point` (`binary_search_by` in Rust std):
`left`/`right` bracket the search, probing `mid = (left+right)/2`; written
with fuel so the recursion is structural.  Any `fuel ≥ right - left`
produces the loop's limit. -/
def ppGo (pred : LinkGroup → Bool) (l : List LinkGroup) :
    Nat → Nat → Nat → Nat
  | 0, left, _ => left
  | fuel + 1, left, right =>
    if left < right then
      let mid := (left + right) / 2
      if (l.get? mid).any pred then ppGo pred l fuel (mid + 1) right
      else ppGo pred l fuel left mid
    else left

/-- `slice::partition_point(pred)`: the index of the first element of the
second partition, found by binary search. -/
def partitionPoint (l : List LinkGroup) (pred : LinkGroup → Bool) : Nat :=
  ppGo pred l l.length 0 l.length

/-- `LinkedEditingRanges::get(id, anchor, snapshot)`: binary-search the
buffer's entry list for the rightmost entry whose `primary.start <=
anchor.start`, then test only that candidate for `primary.end >=
anchor.end`. -/
def LinkedEditingRanges.get (self : LinkedEditingRanges) (id : BufferId)
    (anchor : AnchorRange) (snapshot : Snapshot) : Option LinkGroup :=
  match self.find id with
  | none => none
  | some ranges_for_buffer =>
    let lower_bound := partitionPoint ranges_for_buffer
      (fun g => (Anchor.cmp g.1.start anchor.start snapshot).isLE)
    if lower_bound = 0 then
      -- None of the linked ranges contains `anchor`.
      none
    else
      Option.filter (fun g => (Anchor.cmp g.1.«end» anchor.«end» snapshot).isGE)
        (ranges_for_buffer.get? (lower_bound - 1))

/-- `LinkedEditingRanges::is_empty`: emptiness of the underlying map. -/
def LinkedEditingRanges.is_empty (self : LinkedEditingRanges) : Bool :=
  self.entries.isEmpty

/-! ### The refresh pipeline (`refresh_linked_ranges`) -/

/-- All unordered pairs of list elements in order:
`itertools::combinations(2)` yields `(l[i], l[j])` for `i < j`. -/
def pairs : List AnchorRange → List (AnchorRange × AnchorRange)
  | [] => []
  | x :: xs => xs.map (fun y => (x, y)) ++ pairs xs

/-- `insert_sorted_anchor`: `siblings.entry(key.clone()).or_default().push(value.clone())`
on the sibling map (an association list in insertion order). -/
def insertSib (m : List (AnchorRange × List AnchorRange)) (key value : AnchorRange) :
    List (AnchorRange × List AnchorRange) :=
  match m with
  | [] => [(key, [value])]
  | (k, vs) :: rest =>
    if k = key then (k, vs ++ [value]) :: rest
    else (k, vs) :: insertSib rest key value

/-- One iteration of the `for items in edits.into_iter().combinations(2)`
loop: record each member of the pair as the other's sibling. -/
def stepSib (m : List (AnchorRange × List AnchorRange))
    (p : AnchorRange × AnchorRange) : List (AnchorRange × List AnchorRange) :=
  insertSib (insertSib m p.1 p.2) p.2 p.1

/-- The sibling map built from a provider response: every unordered pair of
ranges is linked both ways. -/
def buildSibs (edits : List AnchorRange) : List (AnchorRange × List AnchorRange) :=
  (pairs edits).foldl stepSib []

/-- Auxiliary accessor: the sibling list stored under a key of the
association-list sibling map (`[]` when the key is absent). -/
def getSibs : List (AnchorRange × List AnchorRange) → AnchorRange → List AnchorRange
  | [], _ => []
  | (k, vs) :: rest, key => if k = key then vs else getSibs rest key

/-- Auxiliary accessor: the keys of the sibling map, in insertion order. -/
def keysOf (m : List (AnchorRange × List AnchorRange)) : List AnchorRange :=
  m.map Prod.fst

/-- Auxiliary: the partners of `k` across a pair list, in order — exactly
what the pairwise-insertion loop appends to `k`'s sibling list. -/
def occs (k : AnchorRange) : List (AnchorRange × AnchorRange) → List AnchorRange
  | [] => []
  | p :: ps =>
    ((if p.1 = k then [p.2] else []) ++ (if p.2 = k then [p.1] else [])) ++ occs k ps

/-- `Vec::sort_by` with a comparator: a stable insertion sort, inserting
each element before the first already-sorted element it is `le` to. -/
def orderedInsert (le : LinkGroup → LinkGroup → Bool) (a : LinkGroup) :
    List LinkGroup → List LinkGroup
  | [] => [a]
  | b :: l => if le a b then a :: b :: l else b :: orderedInsert le a l

/-- Stable sort of a batch (`Vec::sort_by`). -/
def sortByCmp (le : LinkGroup → LinkGroup → Bool) : List LinkGroup → List LinkGroup
  | [] => []
  | a :: l => orderedInsert le a (sortByCmp le l)

/-- `siblings.sort_by(|lhs, rhs| lhs.0.cmp(&rhs.0, &snapshot))`. -/
def sortBatch (vs : List LinkGroup) (s : Snapshot) : List LinkGroup :=
  sortByCmp (fun lhs rhs => (AnchorRange.cmp lhs.1 rhs.1 s).isLE) vs

/-- The body of the per-selection `highlights` closure, after the provider
answered with `edits`: find a response range containing the query selection
(`start..end`), discarding the whole response when none does, then build the
pairwise sibling map and sort it by primary range under the fetch-time
snapshot. -/
def highlightsFor (edits : List AnchorRange) (start «end» : Anchor)
    (snapshot : Snapshot) : Option (List LinkGroup) :=
  match edits.find? (fun range =>
      (Anchor.cmp range.start start snapshot).isLE &&
      (Anchor.cmp range.«end» «end» snapshot).isGE) with
  | none => none
  | some _ => some (sortBatch (buildSibs edits) snapshot)

/-- One applicable selection's fetch + graph construction: the provider
(`project.linked_edit`, already `log_err`-collapsed to an `Option`) is asked
about the selection's buffer and head anchor; a failure contributes
nothing. -/
def selectionBatch (provider : BufferId → Anchor → Option (List AnchorRange))
    (fetchSnapshot : BufferId → Snapshot) (sel : BufferId × Anchor × Anchor) :
    Option (BufferId × List LinkGroup) :=
  let snapshot := fetchSnapshot sel.1
  match provider sel.1 sel.2.1 with
  | none => none
  | some edits =>
    match highlightsFor edits sel.2.1 sel.2.2 snapshot with
    | none => none
    | some siblings => some (sel.1, siblings)

/-- One editor selection, exposing `head()` and `tail()` buffer positions. -/
structure Selection where
  head : Nat
  tail : Nat
deriving DecidableEq, Repr

/-- The external collaborators of one refresh cycle, sampled as the cycle
would observe them: the rename-pending flag at cycle start and at install
time, the project handle, the selections, `text_anchor_for_position`, the
fetch-time snapshot and provider per buffer, and the install-time snapshot
lookup (`None` when the buffer can no longer be snapshotted). -/
structure RefreshEnv where
  pendingRenameAtStart : Bool
  pendingRenameAtInstall : Bool
  hasProject : Bool
  selections : List Selection
  textAnchorForPosition : Nat → Option (BufferId × Anchor)
  fetchSnapshot : BufferId → Snapshot
  linkedEdit : BufferId → Anchor → Option (List AnchorRange)
  mergeSnapshot : BufferId → Option Snapshot

/-- The selection-collection loop.  Note the `?` operator on
`text_anchor_for_position`: a failed head or tail resolution aborts
`refresh_linked_ranges` as a whole (`none`), while a selection whose head
and tail resolve to different buffers is merely skipped (`continue`). -/
def collectGo (resolve : Nat → Option (BufferId × Anchor)) :
    List Selection → Option (List (BufferId × Anchor × Anchor))
  | [] => some []
  | sel :: rest =>
    match resolve sel.head with
    | none => none
    | some (cursor_buffer, start_position) =>
      match resolve sel.tail with
      | none => none
      | some (tail_buffer, end_position) =>
        match collectGo resolve rest with
        | none => none
        | some acc =>
          if cursor_buffer ≠ tail_buffer then
            -- Throw away selections spanning multiple buffers.
            some acc
          else
            some ((cursor_buffer, start_position, end_position) :: acc)

/-- `this.linked_edit_ranges.0.entry(buffer_id).or_default().extend(ranges)`:
extend the existing entry, or insert a (possibly empty) fresh one. -/
def insertExtend : List (BufferId × List LinkGroup) → BufferId → List LinkGroup →
    List (BufferId × List LinkGroup)
  | [], b, rs => [(b, rs)]
  | (k, vs) :: rest, b, rs =>
    if k = b then (k, vs ++ rs) :: rest
    else (k, vs) :: insertExtend rest b rs

/-- One step of the install loop: a failed batch (`None`, flattened away)
contributes nothing; a successful one is extended into the index. -/
def installStep (idx : List (BufferId × List LinkGroup))
    (ob : Option (BufferId × List LinkGroup)) : List (BufferId × List LinkGroup) :=
  match ob with
  | none => idx
  | some (b, rs) => insertExtend idx b rs

/-- The install loop over `highlights.into_iter().flatten()`, starting from
the just-cleared index. -/
def installBatches (batches : List (Option (BufferId × List LinkGroup))) :
    List (BufferId × List LinkGroup) :=
  batches.foldl installStep []

/-- The re-sort loop after install: every buffer whose fresh snapshot is
obtainable has its entries sorted by primary range under it; a buffer that
can no longer be snapshotted is skipped (`continue`), keeping its entries
as installed. -/
def resortAll (idx : List (BufferId × List LinkGroup))
    (msnap : BufferId → Option Snapshot) : List (BufferId × List LinkGroup) :=
  idx.map (fun e =>
    match msnap e.1 with
    | none => e
    | some snapshot => (e.1, sortBatch e.2 snapshot))

/-- `refresh_linked_ranges`, run to completion (the synchronous prologue
plus the spawned task), as a function from the environment and the prior
index to the final index together with the provider requests the cycle
issued. -/
def refresh_linked_ranges (env : RefreshEnv) (st : LinkedEditingRanges) :
    LinkedEditingRanges × List (BufferId × Anchor) :=
  if env.pendingRenameAtStart then (st, [])
  else if !env.hasProject then (st, [])
  else
    match collectGo env.textAnchorForPosition env.selections with
    | none => (st, [])
    | some applicable_selections =>
      if applicable_selections.isEmpty then (st, [])
      else if env.pendingRenameAtInstall then
        (st, applicable_selections.map (fun s => (s.1, s.2.1)))
      else
        (⟨resortAll
            (installBatches (applicable_selections.map
              (selectionBatch env.linkedEdit env.fetchSnapshot)))
            env.mergeSnapshot⟩,
         applicable_selections.map (fun s => (s.1, s.2.1)))

/-- The index after one refresh cycle. -/
def refreshResult (env : RefreshEnv) (st : LinkedEditingRanges) :
    LinkedEditingRanges :=
  (refresh_linked_ranges env st).1

/-- `G.primary` contains `R` under `s`:
`G.primary.start <= R.start` and `R.end <= G.primary.end`. -/
def groupContains (g : LinkGroup) (r : AnchorRange) (s : Snapshot) : Prop :=
  s g.1.start ≤ s r.start ∧ s r.«end» ≤ s g.1.«end»

instance (g : LinkGroup) (r : AnchorRange) (s : Snapshot) :
    Decidable (groupContains g r s) := by
  unfold groupContains; infer_instance

/-- The field invariant documented on `LinkedEditingRanges.0`:
entries strictly sorted by `primary.start`, and adjacent entries
non-overlapping (`entries[i].primary.end <= entries[i+1].primary.start`). -/
def invariantHolds (entries : List LinkGroup) (s : Snapshot) : Prop :=
  List.Pairwise (fun g h => s g.1.start < s h.1.start) entries ∧
  List.Chain' (fun g h => s g.1.«end» ≤ s h.1.start) entries

instance (entries : List LinkGroup) (s : Snapshot) :
    Decidable (invariantHolds entries s) := by
  unfold invariantHolds; infer_instance

/-! ### Concrete instances used by counterexamples and witnesses -/

/-- The identity snapshot: anchor `a` resolves to offset `a`. -/
def idSnap : Snapshot := fun a => a

/-- Two adjacent, touching stored groups: `[0,5]` and `[5,8]`. -/
def cexEnts : List LinkGroup := [(⟨0, 5⟩, []), (⟨5, 8⟩, [])]

/-- An index holding `cexEnts` for buffer `1`. -/
def cexIdx : LinkedEditingRanges := ⟨[(1, cexEnts)]⟩

/-- A cycle with two cursors (at offsets 2 and 3) inside the same linked
range of buffer `1`; the provider answers both queries with the same pair
of ranges `[1,5]` and `[7,9]`. -/
def twoCursorEnv : RefreshEnv :=
  { pendingRenameAtStart := false
    pendingRenameAtInstall := false
    hasProject := true
    selections := [⟨2, 2⟩, ⟨3, 3⟩]
    textAnchorForPosition := fun p => some (1, p)
    fetchSnapshot := fun _ => idSnap
    linkedEdit := fun _ _ => some [⟨1, 5⟩, ⟨7, 9⟩]
    mergeSnapshot := fun _ => some idSnap }

/-- A cycle whose provider response is a single range containing the
query selection. -/
def singleRangeEnv : RefreshEnv :=
  { pendingRenameAtStart := false
    pendingRenameAtInstall := false
    hasProject := true
    selections := [⟨2, 2⟩]
    textAnchorForPosition := fun p => some (1, p)
    fetchSnapshot := fun _ => idSnap
    linkedEdit := fun _ _ => some [⟨1, 5⟩]
    mergeSnapshot := fun _ => some idSnap }

/-- A cycle whose first selection fails anchor resolution (position 0)
while the second selection (cursor at 2) is perfectly applicable. -/
def abortEnv : RefreshEnv :=
  { pendingRenameAtStart := false
    pendingRenameAtInstall := false
    hasProject := true
    selections := [⟨0, 0⟩, ⟨2, 2⟩]
    textAnchorForPosition := fun p => if p = 0 then none else some (1, p)
    fetchSnapshot := fun _ => idSnap
    linkedEdit := fun _ _ => some [⟨1, 5⟩, ⟨7, 9⟩]
    mergeSnapshot := fun _ => some idSnap }

/-- Like `twoCursorEnv`, but buffer `1` can no longer be snapshotted at
install time. -/
def noSnapshotEnv : RefreshEnv :=
  { pendingRenameAtStart := false
    pendingRenameAtInstall := false
    hasProject := true
    selections := [⟨2, 2⟩, ⟨3, 3⟩]
    textAnchorForPosition := fun p => some (1, p)
    fetchSnapshot := fun _ => idSnap
    linkedEdit := fun _ _ => some [⟨1, 5⟩, ⟨7, 9⟩]
    mergeSnapshot := fun _ => none }

/-- A prior index holding entries for buffer `7`, which no cycle below
touches. -/
def priorIdx : LinkedEditingRanges := ⟨[(7, [(⟨100, 200⟩, [])])]⟩

/-- A cycle with one selection spanning two buffers (head at position 2 in
buffer 1, tail at position 5 in buffer 2) and one single-buffer selection
(cursor at 3 in buffer 2): positions at or above 3 resolve to buffer 2,
lower ones to buffer 1. -/
def crossEnv : RefreshEnv :=
  { pendingRenameAtStart := false
    pendingRenameAtInstall := false
    hasProject := true
    selections := [⟨2, 5⟩, ⟨3, 3⟩]
    textAnchorForPosition := fun p => some (if 3 ≤ p then 2 else 1, p)
    fetchSnapshot := fun _ => idSnap
    linkedEdit := fun _ _ => some [⟨1, 5⟩, ⟨7, 9⟩]
    mergeSnapshot := fun _ => some idSnap }

/-- A concrete provider response used by the clique-completeness witness. -/
def cliqueEdits : List AnchorRange := [⟨9, 12⟩, ⟨1, 4⟩, ⟨20, 23⟩]

/-! ### Basic facts about the snapshot comparators -/

theorem anchorCmp_isLE (a b : Anchor) (s : Snapshot) :
    (Anchor.cmp a b s).isLE = true ↔ s a ≤ s b := by
  unfold Anchor.cmp
  rcases Nat.lt_trichotomy (s a) (s b) with h | h | h
  · simp [Nat.compare_eq_lt.mpr h, Ordering.isLE]
    omega
  · rw [h, Nat.compare_eq_eq.mpr rfl]
    simp [Ordering.isLE]
  · simp [Nat.compare_eq_gt.mpr h, Ordering.isLE]
    omega

theorem anchorCmp_isGE (a b : Anchor) (s : Snapshot) :
    (Anchor.cmp a b s).isGE = true ↔ s b ≤ s a := by
  unfold Anchor.cmp
  rcases Nat.lt_trichotomy (s a) (s b) with h | h | h
  · simp [Nat.compare_eq_lt.mpr h, Ordering.isGE]
    omega
  · rw [h, Nat.compare_eq_eq.mpr rfl]
    simp [Ordering.isGE]
  · simp [Nat.compare_eq_gt.mpr h, Ordering.isGE]
    omega

theorem rangeCmp_isLE (a b : AnchorRange) (s : Snapshot) :
    (AnchorRange.cmp a b s).isLE = true ↔
      s a.start < s b.start ∨ (s a.start = s b.start ∧ s a.«end» ≤ s b.«end») := by
  unfold AnchorRange.cmp Anchor.cmp
  rcases Nat.lt_trichotomy (s a.start) (s b.start) with h | h | h
  · simp [Nat.compare_eq_lt.mpr h, Ordering.then, Ordering.isLE]
    omega
  · rw [Nat.compare_eq_eq.mpr h]
    simp only [Ordering.then]
    rcases Nat.lt_trichotomy (s a.«end») (s b.«end») with h2 | h2 | h2
    · simp [Nat.compare_eq_lt.mpr h2, Ordering.isLE]
      omega
    · simp [Nat.compare_eq_eq.mpr h2, Ordering.isLE]
      omega
    · simp [Nat.compare_eq_gt.mpr h2, Ordering.isLE]
      omega
  · simp [Nat.compare_eq_gt.mpr h, Ordering.then, Ordering.isLE]
    omega

/-! ### Correctness of the embedded binary search -/

theorem ppGo_le (pred : LinkGroup → Bool) (l : List LinkGroup) :
    ∀ fuel left right, left ≤ right → ppGo pred l fuel left right ≤ right := by
  intro fuel
  induction fuel with
  | zero => intro left right h; simpa [ppGo] using h
  | succ n ih =>
    intro left right h
    simp only [ppGo]
    by_cases hlr : left < right
    · rw [if_pos hlr]
      have hmlt : (left + right) / 2 < right := by
        rw [Nat.div_lt_iff_lt_mul (by omega : 0 < 2)]
        omega
      have hmge : left ≤ (left + right) / 2 := by
        rw [Nat.le_div_iff_mul_le (by omega : 0 < 2)]
        omega
      by_cases hp : (l.get? ((left + right) / 2)).any pred = true
      · rw [if_pos hp]
        exact ih _ _ (by omega)
      · rw [if_neg hp]
        exact le_trans (ih _ _ hmge) (le_of_lt hmlt)
    · rw [if_neg hlr]
      exact h

theorem partitionPoint_le_length (l : List LinkGroup) (pred : LinkGroup → Bool) :
    partitionPoint l pred ≤ l.length :=
  ppGo_le pred l l.length 0 l.length (Nat.zero_le _)

theorem ppGo_eq (pred : LinkGroup → Bool) (l : List LinkGroup) (t : Nat)
    (ht1 : ∀ i, i < t → (l.get? i).any pred = true)
    (ht2 : ∀ i, t ≤ i → i < l.length → (l.get? i).any pred = false) :
    ∀ fuel left right, left ≤ t → t ≤ right → right ≤ l.length →
      right - left ≤ fuel → ppGo pred l fuel left right = t := by
  intro fuel
  induction fuel with
  | zero =>
    intro left right h1 h2 h3 h4
    simp only [ppGo]
    omega
  | succ n ih =>
    intro left right h1 h2 h3 h4
    simp only [ppGo]
    by_cases hlr : left < right
    · rw [if_pos hlr]
      have hmlt : (left + right) / 2 < right := by
        rw [Nat.div_lt_iff_lt_mul (by omega : 0 < 2)]
        omega
      have hmge : left ≤ (left + right) / 2 := by
        rw [Nat.le_div_iff_mul_le (by omega : 0 < 2)]
        omega
      by_cases hp : (l.get? ((left + right) / 2)).any pred = true
      · rw [if_pos hp]
        have hmid_t : (left + right) / 2 < t := by
          by_contra hge
          have := ht2 ((left + right) / 2) (by omega) (by omega)
          rw [this] at hp
          exact Bool.false_ne_true hp
        exact ih _ _ (by omega) h2 h3 (by omega)
      · rw [if_neg hp]
        have hmid_t : t ≤ (left + right) / 2 := by
          by_contra hlt
          exact hp (ht1 _ (by omega))
        exact ih _ _ h1 (by omega) (by omega) (by omega)
    · rw [if_neg hlr]
      omega

theorem takeWhile_le_length (pred : LinkGroup → Bool) :
    ∀ l : List LinkGroup, (l.takeWhile pred).length ≤ l.length := by
  intro l
  induction l with
  | nil => simp
  | cons x xs ih =>
    rw [List.takeWhile_cons]
    by_cases h : pred x
    · simp only [h, if_pos]
      simpa using ih
    · simp [h]

theorem takeWhile_get?_true (pred : LinkGroup → Bool) :
    ∀ (l : List LinkGroup) i, i < (l.takeWhile pred).length →
      (l.get? i).any pred = true := by
  intro l
  induction l with
  | nil => intro i hi; simp at hi
  | cons x xs ih =>
    intro i hi
    rw [List.takeWhile_cons] at hi
    by_cases h : pred x
    · simp only [h, if_pos] at hi
      match i with
      | 0 => simpa using h
      | i + 1 =>
        simp only [List.length_cons, Nat.add_lt_add_iff_right] at hi
        simpa using ih i hi
    · simp [h] at hi

theorem takeWhile_get?_false (pred : LinkGroup → Bool) :
    ∀ l : List LinkGroup, (l.takeWhile pred).length < l.length →
      (l.get? (l.takeWhile pred).length).any pred = false := by
  intro l
  induction l with
  | nil => intro h; simp at h
  | cons x xs ih =>
    intro h
    rw [List.takeWhile_cons]
    by_cases hx : pred x
    · rw [List.takeWhile_cons, if_pos hx] at h
      simp only [hx, if_pos, List.length_cons]
      simp only [List.length_cons, Nat.add_lt_add_iff_right] at h
      simpa using ih h
    · simp [hx]

/-- Under a monotone (partitioned) predicate, every index at or beyond the
true prefix fails the predicate. -/
theorem takeWhile_any_false (pred : LinkGroup → Bool) (l : List LinkGroup)
    (hmono : ∀ i j, i ≤ j → (l.get? j).any pred = true → (l.get? i).any pred = true) :
    ∀ i, (l.takeWhile pred).length ≤ i → i < l.length →
      (l.get? i).any pred = false := by
  intro i hti hil
  by_contra htrue
  rw [Bool.not_eq_false] at htrue
  have := hmono _ _ hti htrue
  have hlen : (l.takeWhile pred).length < l.length := by omega
  rw [takeWhile_get?_false pred l hlen] at this
  exact Bool.false_ne_true this

/-- Under a monotone (partitioned) predicate, the binary search returns the
length of the true prefix. -/
theorem partitionPoint_eq_takeWhile (pred : LinkGroup → Bool) (l : List LinkGroup)
    (hmono : ∀ i j, i ≤ j → (l.get? j).any pred = true → (l.get? i).any pred = true) :
    partitionPoint l pred = (l.takeWhile pred).length := by
  have ht := takeWhile_le_length pred l
  exact ppGo_eq pred l _ (takeWhile_get?_true pred l)
    (takeWhile_any_false pred l hmono) l.length 0 l.length
    (Nat.zero_le _) ht (le_refl _) (by omega)

/-- Strict sortedness plus adjacent non-overlap gives non-overlap between
every earlier/later pair of entries. -/
theorem nonoverlap_pairwise (s : Snapshot) :
    ∀ l : List LinkGroup,
      l.Pairwise (fun g h => s g.1.start < s h.1.start) →
      l.Chain' (fun g h => s g.1.«end» ≤ s h.1.start) →
      l.Pairwise (fun g h => s g.1.«end» ≤ s h.1.start) := by
  intro l
  induction l with
  | nil => intro _ _; exact List.Pairwise.nil
  | cons x xs ih =>
    intro hp hc
    rw [List.pairwise_cons] at hp ⊢
    obtain ⟨hx, hp'⟩ := hp
    have hc' : xs.Chain' (fun g h => s g.1.«end» ≤ s h.1.start) := hc.tail
    refine ⟨?_, ih hp' hc'⟩
    intro h hh
    match xs, hh, hp', hc with
    | y :: rest, hh, hp', hc =>
      have hxy : s x.1.«end» ≤ s y.1.start := (List.chain'_cons.mp hc).1
      rcases List.mem_cons.mp hh with rfl | hh'
      · exact hxy
      · have : s y.1.start < s h.1.start := (List.pairwise_cons.mp hp').1 h hh'
        omega

/-- What a successful lookup implies, read off from the `get` code: the
buffer has an entry list, the partition point is positive, and the returned
group is the candidate at `lower_bound - 1`, which passed the
end-containment filter. -/
theorem get_eq_some_elim (idx : LinkedEditingRanges) (id : BufferId)
    (r : AnchorRange) (s : Snapshot) (g : LinkGroup)
    (h : idx.get id r s = some g) :
    ∃ entries, idx.find id = some entries ∧
      partitionPoint entries (fun e => (Anchor.cmp e.1.start r.start s).isLE) ≠ 0 ∧
      entries.get? (partitionPoint entries
        (fun e => (Anchor.cmp e.1.start r.start s).isLE) - 1) = some g ∧
      (Anchor.cmp g.1.«end» r.«end» s).isGE = true := by
  unfold LinkedEditingRanges.get at h
  cases hfind : idx.find id with
  | none => rw [hfind] at h; exact absurd h (by simp)
  | some entries =>
    rw [hfind] at h
    simp only at h
    refine ⟨entries, rfl, ?_⟩
    by_cases h0 : partitionPoint entries
        (fun e => (Anchor.cmp e.1.start r.start s).isLE) = 0
    · rw [if_pos h0] at h
      exact absurd h (by simp)
    · rw [if_neg h0] at h
      cases hg : entries.get? (partitionPoint entries
          (fun e => (Anchor.cmp e.1.start r.start s).isLE) - 1) with
      | none => rw [hg] at h; exact absurd h (by simp [Option.filter])
      | some a =>
        rw [hg] at h
        simp only [Option.filter] at h
        by_cases hp : (Anchor.cmp a.1.«end» r.«end» s).isGE = true
        · rw [if_pos hp] at h
          obtain rfl : a = g := by injection h
          exact ⟨h0, rfl, hp⟩
        · rw [if_neg hp] at h
          exact absurd h (by simp)

/-- C9: `get` is total and returns `none` on every degenerate path: a
missing buffer entry, an empty entry list, and a zero partition point; the
partition point never exceeds the list length (so `lower_bound - 1` is in
bounds whenever the guard `lower_bound > 0` holds), and any returned group
is a stored entry. -/
theorem get_total (idx : LinkedEditingRanges) (id : BufferId) (r : AnchorRange)
    (s : Snapshot) :
    (idx.find id = none → idx.get id r s = none) ∧
    (idx.find id = some [] → idx.get id r s = none) ∧
    (∀ entries, idx.find id = some entries →
        partitionPoint entries (fun g => (Anchor.cmp g.1.start r.start s).isLE)
          ≤ entries.length) ∧
    (∀ entries, idx.find id = some entries →
        partitionPoint entries (fun g => (Anchor.cmp g.1.start r.start s).isLE) = 0 →
        idx.get id r s = none) ∧
    (∀ g, idx.get id r s = some g →
        ∃ entries, idx.find id = some entries ∧ g ∈ entries) := by
  refine ⟨?_, ?_, ?_, ?_, ?_⟩
  · intro hfind
    unfold LinkedEditingRanges.get
    rw [hfind]
  · intro hfind
    unfold LinkedEditingRanges.get
    rw [hfind]
    simp only
    have h0 : partitionPoint []
        (fun g => (Anchor.cmp g.1.start r.start s).isLE) = 0 := rfl
    rw [if_pos h0]
  · intro entries _
    exact partitionPoint_le_length entries _
  · intro entries hfind h0
    unfold LinkedEditingRanges.get
    rw [hfind]
    simp only
    rw [if_pos h0]
  · intro g hg
    obtain ⟨entries, hfind, _, hget, _⟩ := get_eq_some_elim idx id r s g hg
    exact ⟨entries, hfind, List.get?_mem hget⟩

/-- Witness for `get_total`, at an index with no entry for the buffer. -/
theorem get_total_witness :
    (⟨[]⟩ : LinkedEditingRanges).find 5 = none ∧
      (⟨[]⟩ : LinkedEditingRanges).get 5 ⟨0, 0⟩ idSnap = none :=
  ⟨rfl, (get_total ⟨[]⟩ 5 ⟨0, 0⟩ idSnap).1 rfl⟩

/-- On a list strictly sorted by `primary.start`, the predicate
`primary.start <= r.start` is monotone along indices. -/
theorem pred_mono_of_sorted (entries : List LinkGroup) (snap : Snapshot)
    (r : AnchorRange)
    (hsort : List.Pairwise (fun g h => snap g.1.start < snap h.1.start) entries) :
    ∀ i j, i ≤ j →
      (entries.get? j).any (fun g => (Anchor.cmp g.1.start r.start snap).isLE) = true →
      (entries.get? i).any (fun g => (Anchor.cmp g.1.start r.start snap).isLE) = true := by
  intro i j hij hj
  cases hgj : entries.get? j with
  | none => rw [hgj] at hj; simp at hj
  | some gj =>
    rw [hgj] at hj
    simp only [Option.any] at hj
    have hjlen : j < entries.length := by
      by_contra hge
      rw [List.get?_eq_none.mpr (by omega)] at hgj
      exact absurd hgj (by simp)
    have hilen : i < entries.length := lt_of_le_of_lt hij hjlen
    rw [List.get?_eq_get hilen]
    simp only [Option.any]
    rcases lt_or_eq_of_le hij with hlt | heq
    · have hgj' : entries.get ⟨j, hjlen⟩ = gj := by
        rw [List.get?_eq_get hjlen] at hgj
        injection hgj
      have hrel := List.pairwise_iff_get.mp hsort ⟨i, hilen⟩ ⟨j, hjlen⟩
        (Fin.mk_lt_mk.mpr hlt)
      rw [hgj'] at hrel
      rw [anchorCmp_isLE] at hj ⊢
      omega
    · subst heq
      rw [List.get?_eq_get hilen] at hgj
      injection hgj with hgj'
      rw [hgj']
      exact hj

/-- C1 (amended): under the sort and non-overlap invariants, and with every
stored primary well-formed (`start <= end`), (1) when no stored group's
primary contains `R`, `get` returns `none`; (2) when exactly one stored
group contains `R`, `get` returns that group.  (When two adjacent touching
groups both contain a degenerate boundary query, `get` returns the later
one — see the counterexample.) -/
theorem get_containment_correct (idx : LinkedEditingRanges) (b : BufferId)
    (entries : List LinkGroup) (snap : Snapshot)
    (hfind : idx.find b = some entries)
    (hsort : List.Pairwise (fun g h => snap g.1.start < snap h.1.start) entries)
    (hchain : List.Chain' (fun g h => snap g.1.«end» ≤ snap h.1.start) entries)
    (hwf : ∀ g ∈ entries, snap g.1.start ≤ snap g.1.«end») :
    (∀ r : AnchorRange, (∀ g ∈ entries, ¬ groupContains g r snap) →
        idx.get b r snap = none) ∧
    (∀ r G, G ∈ entries → groupContains G r snap →
        (∀ H ∈ entries, groupContains H r snap → H = G) →
        idx.get b r snap = some G) := by
  constructor
  · intro r hno
    by_cases hres : idx.get b r snap = none
    · exact hres
    · exfalso
      obtain ⟨g, hg⟩ := Option.ne_none_iff_exists'.mp hres
      obtain ⟨entries', hfind', hlb, hget, hGE⟩ := get_eq_some_elim idx b r snap g hg
      rw [hfind] at hfind'
      injection hfind' with he
      subst he
      have hmono := pred_mono_of_sorted entries snap r hsort
      have hpp := partitionPoint_eq_takeWhile
        (fun g => (Anchor.cmp g.1.start r.start snap).isLE) entries hmono
      rw [hpp] at hlb hget
      have h1 := takeWhile_get?_true
        (fun g => (Anchor.cmp g.1.start r.start snap).isLE) entries
        ((entries.takeWhile
          (fun g => (Anchor.cmp g.1.start r.start snap).isLE)).length - 1)
        (by omega)
      rw [hget] at h1
      simp only [Option.any] at h1
      have hstart : snap g.1.start ≤ snap r.start := (anchorCmp_isLE _ _ _).mp h1
      have hend : snap r.«end» ≤ snap g.1.«end» := (anchorCmp_isGE _ _ _).mp hGE
      exact hno g (List.get?_mem hget) ⟨hstart, hend⟩
  · intro r G hG hGc huniq
    have hmono := pred_mono_of_sorted entries snap r hsort
    have hpp := partitionPoint_eq_takeWhile
      (fun g => (Anchor.cmp g.1.start r.start snap).isLE) entries hmono
    obtain ⟨⟨k, hk⟩, hGk⟩ := List.mem_iff_get.mp hG
    have hGk? : entries.get? k = some G := by
      rw [List.get?_eq_get hk, hGk]
    have hpredG : (Anchor.cmp G.1.start r.start snap).isLE = true :=
      (anchorCmp_isLE _ _ _).mpr hGc.1
    have htlen := takeWhile_le_length
      (fun g => (Anchor.cmp g.1.start r.start snap).isLE) entries
    have hkt : k < (entries.takeWhile
        (fun g => (Anchor.cmp g.1.start r.start snap).isLE)).length := by
      by_contra hge
      have hfalse := takeWhile_any_false
        (fun g => (Anchor.cmp g.1.start r.start snap).isLE) entries hmono k
        (by omega) hk
      rw [hGk?] at hfalse
      simp only [Option.any] at hfalse
      rw [hpredG] at hfalse
      simp at hfalse
    have hj : (entries.takeWhile
        (fun g => (Anchor.cmp g.1.start r.start snap).isLE)).length - 1 <
        entries.length := by omega
    have hany := takeWhile_get?_true
      (fun g => (Anchor.cmp g.1.start r.start snap).isLE) entries
      ((entries.takeWhile
        (fun g => (Anchor.cmp g.1.start r.start snap).isLE)).length - 1)
      (by omega)
    rw [List.get?_eq_get hj] at hany
    simp only [Option.any] at hany
    have hstart_gj : snap (entries.get ⟨_, hj⟩).1.start ≤ snap r.start :=
      (anchorCmp_isLE _ _ _).mp hany
    have hkj : k ≤ (entries.takeWhile
        (fun g => (Anchor.cmp g.1.start r.start snap).isLE)).length - 1 := by omega
    have hgjG : entries.get ⟨_, hj⟩ = G := by
      rcases lt_or_eq_of_le hkj with hlt | heq
      · exfalso
        have hpw := nonoverlap_pairwise snap entries hsort hchain
        have hno_kj := List.pairwise_iff_get.mp hpw ⟨k, hk⟩ ⟨_, hj⟩
          (Fin.mk_lt_mk.mpr hlt)
        rw [hGk] at hno_kj
        have hwfj := hwf (entries.get ⟨_, hj⟩) (List.get_mem entries _ hj)
        have hcont_gj : groupContains (entries.get ⟨_, hj⟩) r snap := by
          refine ⟨hstart_gj, ?_⟩
          have h2 := hGc.2
          omega
        have heqG := huniq (entries.get ⟨_, hj⟩) (List.get_mem entries _ hj) hcont_gj
        have hlt' := List.pairwise_iff_get.mp hsort ⟨k, hk⟩ ⟨_, hj⟩
          (Fin.mk_lt_mk.mpr hlt)
        rw [hGk, heqG] at hlt'
        omega
      · rw [← hGk]
        congr 1
        exact Fin.ext heq.symm
    have hcompute : idx.get b r snap =
        (if (entries.takeWhile
            (fun g => (Anchor.cmp g.1.start r.start snap).isLE)).length = 0 then none
         else Option.filter (fun g => (Anchor.cmp g.1.«end» r.«end» snap).isGE)
           (entries.get? ((entries.takeWhile
            (fun g => (Anchor.cmp g.1.start r.start snap).isLE)).length - 1))) := by
      unfold LinkedEditingRanges.get
      rw [hfind]
      simp only
      rw [hpp]
    rw [hcompute, if_neg (by omega), List.get?_eq_get hj]
    simp only [Option.filter]
    rw [if_pos (by rw [hgjG]; exact (anchorCmp_isGE _ _ _).mpr hGc.2)]
    rw [hgjG]

/-- C1 counterexample to the claim as stated: with two adjacent touching
stored groups `[0,5]` and `[5,8]` (satisfying the sort and non-overlap
invariants, with well-formed primaries), the degenerate boundary query
`[5,5]` is contained in the first group `G`, yet `get` returns the second
group, not `G`. -/
theorem get_boundary_counterexample :
    List.Pairwise (fun g h => idSnap g.1.start < idSnap h.1.start) cexEnts ∧
    List.Chain' (fun g h => idSnap g.1.«end» ≤ idSnap h.1.start) cexEnts ∧
    (∀ g ∈ cexEnts, idSnap g.1.start ≤ idSnap g.1.«end») ∧
    cexIdx.find 1 = some cexEnts ∧
    ((⟨0, 5⟩, []) : LinkGroup) ∈ cexEnts ∧
    groupContains (⟨0, 5⟩, []) ⟨5, 5⟩ idSnap ∧
    cexIdx.get 1 ⟨5, 5⟩ idSnap ≠ some ((⟨0, 5⟩, []) : LinkGroup) := by
  refine ⟨by decide, List.chain'_pair.mpr (by decide), by decide, rfl, by decide,
    by decide, by decide⟩

/-- Witness for `get_containment_correct`: on the same two-group index, the
query `[1,2]` is contained only in the first group and `get` returns it,
while the query `[10,11]` is contained in no group and `get` returns
`none`. -/
theorem get_containment_correct_witness :
    cexIdx.get 1 ⟨1, 2⟩ idSnap = some ((⟨0, 5⟩, []) : LinkGroup) ∧
    cexIdx.get 1 ⟨10, 11⟩ idSnap = none := by
  have h := get_containment_correct cexIdx 1 cexEnts idSnap rfl
    (by decide) (List.chain'_pair.mpr (by decide)) (by decide)
  exact ⟨h.2 ⟨1, 2⟩ (⟨0, 5⟩, []) (by decide) (by decide) (by decide),
         h.1 ⟨10, 11⟩ (by decide)⟩

/-! ### Association-list and pipeline lemmas -/

theorem findEntries_cons (e : BufferId × List LinkGroup)
    (rest : List (BufferId × List LinkGroup)) (b : BufferId) :
    findEntries (e :: rest) b =
      if e.1 = b then some e.2 else findEntries rest b := by
  unfold findEntries
  by_cases h : e.1 = b
  · rw [List.find?_cons_of_pos _ (by simpa using h), if_pos h]
    rfl
  · rw [List.find?_cons_of_neg _ (by simpa using h), if_neg h]

/-- A lookup with entry list `[]` answers `none` (the partition point of an
empty list is `0`). -/
theorem get_empty_entries (idx : LinkedEditingRanges) (id : BufferId)
    (r : AnchorRange) (s : Snapshot) (hfind : idx.find id = some []) :
    idx.get id r s = none := by
  unfold LinkedEditingRanges.get
  rw [hfind]
  simp only
  have h0 : partitionPoint []
      (fun g => (Anchor.cmp g.1.start r.start s).isLE) = 0 := rfl
  rw [if_pos h0]

/-- `entry(b').or_default().extend(..)` does not affect lookups of other
keys. -/
theorem findEntries_insertExtend_ne (b' : BufferId) (rs : List LinkGroup)
    (b : BufferId) (h : b' ≠ b) :
    ∀ idx, findEntries (insertExtend idx b' rs) b = findEntries idx b := by
  intro idx
  induction idx with
  | nil =>
    show findEntries [(b', rs)] b = findEntries [] b
    rw [findEntries_cons, if_neg h]
  | cons e rest ih =>
    match e with
    | (k, vs) =>
      show findEntries (if k = b' then (k, vs ++ rs) :: rest
        else (k, vs) :: insertExtend rest b' rs) b = _
      by_cases hk : k = b'
      · rw [if_pos hk, findEntries_cons, findEntries_cons]
        simp only
        rw [if_neg (by rw [hk]; exact h), if_neg (by rw [hk]; exact h)]
      · rw [if_neg hk, findEntries_cons, findEntries_cons]
        simp only
        by_cases hkb : k = b
        · rw [if_pos hkb, if_pos hkb]
        · rw [if_neg hkb, if_neg hkb, ih]

/-- A buffer for which no batch succeeded is absent from the installed
index. -/
theorem findEntries_installFold_none (b : BufferId) :
    ∀ (batches : List (Option (BufferId × List LinkGroup)))
      (idx : List (BufferId × List LinkGroup)),
      (∀ ob ∈ batches, ∀ rs, ob ≠ some (b, rs)) →
      findEntries idx b = none →
      findEntries (batches.foldl installStep idx) b = none := by
  intro batches
  induction batches with
  | nil => intro idx _ h0; exact h0
  | cons ob rest ih =>
    intro idx hb h0
    rw [List.foldl_cons]
    apply ih _ (fun ob' hob' => hb ob' (List.mem_cons_of_mem _ hob'))
    match ob with
    | none => exact h0
    | some (b', rs) =>
      have hne : b' ≠ b := by
        intro hEq
        exact hb (some (b', rs)) (List.mem_cons_self _ _) rs (by rw [hEq])
      show findEntries (insertExtend idx b' rs) b = none
      rw [findEntries_insertExtend_ne b' rs b hne idx]
      exact h0

/-- What the re-sort loop does to a single buffer's lookup: no snapshot
means the entries stay exactly as installed; a snapshot means they are
sorted under it. -/
theorem findEntries_resortAll (idx : List (BufferId × List LinkGroup))
    (msnap : BufferId → Option Snapshot) (b : BufferId) :
    findEntries (resortAll idx msnap) b =
      match findEntries idx b, msnap b with
      | none, _ => none
      | some vs, none => some vs
      | some vs, some s => some (sortBatch vs s) := by
  induction idx with
  | nil => cases msnap b <;> rfl
  | cons e rest ih =>
    show findEntries ((match msnap e.1 with
      | none => e
      | some snapshot => (e.1, sortBatch e.2 snapshot)) :: resortAll rest msnap) b = _
    cases hs : msnap e.1 with
    | none =>
      rw [findEntries_cons, findEntries_cons]
      by_cases hk : e.1 = b
      · rw [if_pos hk, if_pos hk]
        have hsb : msnap b = none := hk ▸ hs
        rw [hsb]
      · rw [if_neg hk, if_neg hk, ih]
    | some s =>
      rw [findEntries_cons, findEntries_cons]
      simp only
      by_cases hk : e.1 = b
      · rw [if_pos hk, if_pos hk]
        have hsb : msnap b = some s := hk ▸ hs
        rw [hsb]
      · rw [if_neg hk, if_neg hk, ih]

theorem findEntries_installBatches_none (b : BufferId)
    (batches : List (Option (BufferId × List LinkGroup)))
    (hb : ∀ ob ∈ batches, ∀ rs, ob ≠ some (b, rs)) :
    findEntries (installBatches batches) b = none :=
  findEntries_installFold_none b batches [] hb rfl

/-- Reduction of a cycle that reaches the install: both rename checks pass,
the project exists, collection succeeds with a non-empty set of applicable
selections. -/
theorem refresh_install_branch (env : RefreshEnv) (st : LinkedEditingRanges)
    (apps : List (BufferId × Anchor × Anchor))
    (h1 : env.pendingRenameAtStart = false)
    (h2 : env.hasProject = true)
    (h3 : collectGo env.textAnchorForPosition env.selections = some apps)
    (h4 : apps ≠ [])
    (h5 : env.pendingRenameAtInstall = false) :
    refresh_linked_ranges env st =
      (⟨resortAll
          (installBatches (apps.map (selectionBatch env.linkedEdit env.fetchSnapshot)))
          env.mergeSnapshot⟩,
       apps.map (fun s => (s.1, s.2.1))) := by
  have h4' : apps.isEmpty = false := by
    cases apps with
    | nil => exact absurd rfl h4
    | cons a l => rfl
  unfold refresh_linked_ranges
  rw [h1, h2, h3]
  simp only [Bool.not_true]
  rw [if_neg (by simp), if_neg (by simp)]
  rw [if_neg (by rw [h4']; simp), if_neg (by rw [h5]; simp)]

/-- C4: if the rename-pending flag is set at cycle start, no provider
request is issued and the index is left unchanged; if it is set at install
time, the fetched results are discarded and the index is left unchanged. -/
theorem rename_suppression (env : RefreshEnv) (st : LinkedEditingRanges) :
    (env.pendingRenameAtStart = true → refresh_linked_ranges env st = (st, [])) ∧
    (env.pendingRenameAtInstall = true → refreshResult env st = st) := by
  constructor
  · intro h
    unfold refresh_linked_ranges
    rw [if_pos h]
  · intro h
    unfold refreshResult refresh_linked_ranges
    by_cases h1 : env.pendingRenameAtStart = true
    · rw [if_pos h1]
    · rw [if_neg h1]
      by_cases h2 : (!env.hasProject) = true
      · rw [if_pos h2]
      · rw [if_neg h2]
        cases hc : collectGo env.textAnchorForPosition env.selections with
        | none => rfl
        | some apps =>
          simp only
          by_cases h3 : apps.isEmpty = true
          · rw [if_pos h3]
          · rw [if_neg h3, if_pos h]

/-- Witness for `rename_suppression`: with the flag set at start the cycle
is a no-op issuing no requests; with it set at install time the prior
index survives. -/
theorem rename_suppression_witness :
    refresh_linked_ranges { twoCursorEnv with pendingRenameAtStart := true }
      priorIdx = (priorIdx, []) ∧
    refreshResult { twoCursorEnv with pendingRenameAtInstall := true }
      priorIdx = priorIdx :=
  ⟨(rename_suppression { twoCursorEnv with pendingRenameAtStart := true }
      priorIdx).1 rfl,
   (rename_suppression { twoCursorEnv with pendingRenameAtInstall := true }
      priorIdx).2 rfl⟩

/-- C3 (amended): a successful install clears the ENTIRE index and
repopulates it from this cycle's batches only, so after the install every
buffer that contributed no successful batch — including untouched buffers
with prior entries — has no entries at all. -/
theorem install_only_touched_buffers (env : RefreshEnv) (st : LinkedEditingRanges)
    (apps : List (BufferId × Anchor × Anchor))
    (h1 : env.pendingRenameAtStart = false)
    (h2 : env.hasProject = true)
    (h3 : collectGo env.textAnchorForPosition env.selections = some apps)
    (h4 : apps ≠ [])
    (h5 : env.pendingRenameAtInstall = false)
    (b : BufferId)
    (hb : b ∉ ((apps.map (selectionBatch env.linkedEdit env.fetchSnapshot)).filterMap
        id).map Prod.fst) :
    (refreshResult env st).find b = none := by
  unfold refreshResult
  rw [refresh_install_branch env st apps h1 h2 h3 h4 h5]
  show (⟨resortAll
      (installBatches (apps.map (selectionBatch env.linkedEdit env.fetchSnapshot)))
      env.mergeSnapshot⟩ : LinkedEditingRanges).find b = none
  unfold LinkedEditingRanges.find
  rw [findEntries_resortAll]
  have hnone : findEntries
      (installBatches (apps.map (selectionBatch env.linkedEdit env.fetchSnapshot)))
      b = none := by
    apply findEntries_installBatches_none
    intro ob hob rs hEq
    apply hb
    rw [hEq] at hob
    apply List.mem_map.mpr
    exact ⟨(b, rs), List.mem_filterMap.mpr ⟨some (b, rs), hob, rfl⟩, rfl⟩
  rw [hnone]

/-- C3 counterexample to the claim as stated: buffer `7` contributes no
batch to the cycle, yet its prior entries are dropped by the install
(the code clears the whole map), not kept unchanged. -/
theorem install_clears_untouched_buffer :
    priorIdx.find 7 = some [(⟨100, 200⟩, [])] ∧
    (refreshResult twoCursorEnv priorIdx).find 7 = none :=
  ⟨rfl, rfl⟩

/-- Witness for `install_only_touched_buffers` on the two-cursor cycle and
untouched buffer `7`. -/
theorem install_only_touched_buffers_witness :
    (refreshResult twoCursorEnv priorIdx).find 7 = none := by
  apply install_only_touched_buffers twoCursorEnv priorIdx
    [(1, 2, 2), (1, 3, 3)] rfl rfl rfl (by decide) rfl 7
  decide

/-- C2 is violated by the code (a bug against the invariant documented on
the `LinkedEditingRanges` field): two cursors inside the same linked range
contribute identical batches for one buffer; the install concatenates and
stably sorts them, leaving duplicated, overlapping entries — neither
strictly sorted nor non-overlapping. -/
theorem install_duplicate_entries_violate_invariant :
    (refreshResult twoCursorEnv ⟨[]⟩).find 1 =
      some [(⟨1, 5⟩, [⟨7, 9⟩]), (⟨1, 5⟩, [⟨7, 9⟩]),
            (⟨7, 9⟩, [⟨1, 5⟩]), (⟨7, 9⟩, [⟨1, 5⟩])] ∧
    ¬ invariantHolds [(⟨1, 5⟩, [⟨7, 9⟩]), (⟨1, 5⟩, [⟨7, 9⟩]),
            (⟨7, 9⟩, [⟨1, 5⟩]), (⟨7, 9⟩, [⟨1, 5⟩])] idSnap := by
  constructor
  · rfl
  · intro hinv
    exact absurd ((List.pairwise_cons.mp hinv.1).1 (⟨1, 5⟩, [⟨7, 9⟩])
      (by decide)) (by decide)

/-- A single failed head or tail resolution anywhere in the selection list
makes the whole collection abort (`?` in the source loop). -/
theorem collectGo_none (resolve : Nat → Option (BufferId × Anchor)) :
    ∀ sels : List Selection,
      (∃ sel ∈ sels, resolve sel.head = none ∨ resolve sel.tail = none) →
      collectGo resolve sels = none := by
  intro sels
  induction sels with
  | nil => intro h; simp at h
  | cons sel rest ih =>
    intro h
    simp only [collectGo]
    cases hh : resolve sel.head with
    | none => rfl
    | some p =>
      obtain ⟨cursor_buffer, start_position⟩ := p
      cases ht : resolve sel.tail with
      | none => rfl
      | some q =>
        obtain ⟨tail_buffer, end_position⟩ := q
        have hr : ∃ s ∈ rest, resolve s.head = none ∨ resolve s.tail = none := by
          rcases h with ⟨s, hs, hfail⟩
          rcases List.mem_cons.mp hs with rfl | hs'
          · rcases hfail with hf | hf
            · rw [hh] at hf; exact absurd hf (by simp)
            · rw [ht] at hf; exact absurd hf (by simp)
          · exact ⟨s, hs', hfail⟩
        rw [ih hr]

/-- When every resolution succeeds, collection keeps exactly the
single-buffer selections, in order, and skips the cross-buffer ones. -/
theorem collectGo_all_some (resolve : Nat → Option (BufferId × Anchor)) :
    ∀ sels : List Selection,
      (∀ sel ∈ sels, (resolve sel.head).isSome ∧ (resolve sel.tail).isSome) →
      collectGo resolve sels = some (sels.filterMap (fun sel =>
        match resolve sel.head, resolve sel.tail with
        | some (cursor_buffer, start_position), some (tail_buffer, end_position) =>
          if cursor_buffer ≠ tail_buffer then none
          else some (cursor_buffer, start_position, end_position)
        | _, _ => none)) := by
  intro sels
  induction sels with
  | nil => intro _; rfl
  | cons sel rest ih =>
    intro h
    have hsel := h sel (List.mem_cons_self _ _)
    obtain ⟨p, hh⟩ := Option.isSome_iff_exists.mp hsel.1
    obtain ⟨q, ht⟩ := Option.isSome_iff_exists.mp hsel.2
    obtain ⟨cursor_buffer, start_position⟩ := p
    obtain ⟨tail_buffer, end_position⟩ := q
    have hrest := ih (fun s hs => h s (List.mem_cons_of_mem _ hs))
    simp only [collectGo, List.filterMap_cons, hh, ht, hrest]
    by_cases hbuf : cursor_buffer ≠ tail_buffer
    · rw [if_pos hbuf, if_pos hbuf]
    · rw [if_neg hbuf, if_neg hbuf]

/-- C6 (amended): a selection whose head and tail resolve to different
buffers is skipped while the remaining selections are kept (in order); but
a selection whose head or tail fails to resolve aborts the WHOLE cycle —
no provider request is issued and the index is unchanged — rather than
being skipped individually. -/
theorem collect_cross_buffer (env : RefreshEnv) (st : LinkedEditingRanges) :
    ((∃ sel ∈ env.selections, env.textAnchorForPosition sel.head = none ∨
        env.textAnchorForPosition sel.tail = none) →
      refresh_linked_ranges env st = (st, [])) ∧
    ((∀ sel ∈ env.selections, (env.textAnchorForPosition sel.head).isSome ∧
        (env.textAnchorForPosition sel.tail).isSome) →
      collectGo env.textAnchorForPosition env.selections =
        some (env.selections.filterMap (fun sel =>
          match env.textAnchorForPosition sel.head,
              env.textAnchorForPosition sel.tail with
          | some (cursor_buffer, start_position), some (tail_buffer, end_position) =>
            if cursor_buffer ≠ tail_buffer then none
            else some (cursor_buffer, start_position, end_position)
          | _, _ => none))) := by
  constructor
  · intro h
    unfold refresh_linked_ranges
    by_cases h1 : env.pendingRenameAtStart = true
    · rw [if_pos h1]
    · rw [if_neg h1]
      by_cases h2 : (!env.hasProject) = true
      · rw [if_pos h2]
      · rw [if_neg h2]
        rw [collectGo_none env.textAnchorForPosition env.selections h]
  · exact collectGo_all_some env.textAnchorForPosition env.selections

/-- C6 counterexample to the claim as stated: in `abortEnv` the second
selection (cursor at 2) resolves fine within one buffer, but because the
first selection's resolution fails, the whole cycle aborts: nothing is
collected, no request is issued, the index is untouched.  The claim's
prediction — the cycle proceeds with the remaining selection — is false. -/
theorem resolution_failure_aborts_cycle :
    (⟨2, 2⟩ : Selection) ∈ abortEnv.selections ∧
    abortEnv.textAnchorForPosition 2 = some (1, 2) ∧
    collectGo abortEnv.textAnchorForPosition abortEnv.selections = none ∧
    refresh_linked_ranges abortEnv priorIdx = (priorIdx, []) :=
  ⟨by decide, rfl, rfl, rfl⟩

/-- Witness for `collect_cross_buffer`: in `crossEnv` all resolutions
succeed, the cross-buffer selection is skipped and the single-buffer
cursor is kept. -/
theorem collect_cross_buffer_witness :
    (∀ sel ∈ crossEnv.selections, (crossEnv.textAnchorForPosition sel.head).isSome ∧
        (crossEnv.textAnchorForPosition sel.tail).isSome) ∧
    collectGo crossEnv.textAnchorForPosition crossEnv.selections =
      some [(2, 3, 3)] := by
  refine ⟨by decide, ?_⟩
  rw [(collect_cross_buffer crossEnv ⟨[]⟩).2 (by decide)]
  rfl

/-- C7 (amended): at install time, a buffer whose fresh snapshot is
unobtainable keeps its just-installed entries exactly as concatenated from
the batches (the re-sort is skipped; the entries are present, possibly
mis-sorted), while a buffer with an obtainable snapshot has its entries
re-sorted under that fresh snapshot. -/
theorem resort_skips_unsnapshotted (env : RefreshEnv) (st : LinkedEditingRanges)
    (apps : List (BufferId × Anchor × Anchor))
    (h1 : env.pendingRenameAtStart = false)
    (h2 : env.hasProject = true)
    (h3 : collectGo env.textAnchorForPosition env.selections = some apps)
    (h4 : apps ≠ [])
    (h5 : env.pendingRenameAtInstall = false)
    (b : BufferId) :
    (refreshResult env st).find b =
      match findEntries (installBatches (apps.map
          (selectionBatch env.linkedEdit env.fetchSnapshot))) b,
        env.mergeSnapshot b with
      | none, _ => none
      | some vs, none => some vs
      | some vs, some s => some (sortBatch vs s) := by
  unfold refreshResult
  rw [refresh_install_branch env st apps h1 h2 h3 h4 h5]
  show (⟨resortAll
      (installBatches (apps.map (selectionBatch env.linkedEdit env.fetchSnapshot)))
      env.mergeSnapshot⟩ : LinkedEditingRanges).find b = _
  unfold LinkedEditingRanges.find
  exact findEntries_resortAll _ _ _

/-- C7 counterexample to the claim as stated: buffer `1` cannot be
snapshotted at install time, yet its entries are PRESENT in the installed
index (in raw batch order, not even sorted), not absent. -/
theorem unsnapshotted_buffer_entries_present :
    (refreshResult noSnapshotEnv ⟨[]⟩).find 1 =
      some [(⟨1, 5⟩, [⟨7, 9⟩]), (⟨7, 9⟩, [⟨1, 5⟩]),
            (⟨1, 5⟩, [⟨7, 9⟩]), (⟨7, 9⟩, [⟨1, 5⟩])] ∧
    ¬ List.Pairwise (fun g h => idSnap g.1.start < idSnap h.1.start)
      ([(⟨1, 5⟩, [⟨7, 9⟩]), (⟨7, 9⟩, [⟨1, 5⟩]),
        (⟨1, 5⟩, [⟨7, 9⟩]), (⟨7, 9⟩, [⟨1, 5⟩])] : List LinkGroup) :=
  ⟨rfl, by decide⟩

/-- Witness for `resort_skips_unsnapshotted` on the no-snapshot cycle. -/
theorem resort_skips_unsnapshotted_witness :
    (refreshResult noSnapshotEnv ⟨[]⟩).find 1 =
      match findEntries (installBatches
          ([((1 : BufferId), (2 : Anchor), (2 : Anchor)), (1, 3, 3)].map
            (selectionBatch noSnapshotEnv.linkedEdit noSnapshotEnv.fetchSnapshot))) 1,
        noSnapshotEnv.mergeSnapshot 1 with
      | none, _ => none
      | some vs, none => some vs
      | some vs, some s => some (sortBatch vs s) :=
  resort_skips_unsnapshotted noSnapshotEnv ⟨[]⟩ [(1, 2, 2), (1, 3, 3)] rfl rfl rfl
    (by decide) rfl 1

/-- C8 (amended): `is_empty` is emptiness of the underlying MAP: it is
`true` iff the index holds no buffer key at all, and in that case every
lookup answers `none`.  It is NOT equivalent to "no buffer holds any
group": an install can insert a buffer key with an empty group list (see
the counterexample). -/
theorem is_empty_iff_no_keys (idx : LinkedEditingRanges) :
    (idx.is_empty = true ↔ idx.entries = []) ∧
    (idx.is_empty = true → ∀ b r s, idx.get b r s = none) := by
  constructor
  · exact List.isEmpty_iff
  · intro h b r s
    have hnil : idx.entries = [] := List.isEmpty_iff.mp h
    unfold LinkedEditingRanges.get LinkedEditingRanges.find findEntries
    rw [hnil]
    rfl

/-- Witness for `is_empty_iff_no_keys` at the empty index. -/
theorem is_empty_iff_no_keys_witness :
    (⟨[]⟩ : LinkedEditingRanges).get 3 ⟨1, 2⟩ idSnap = none :=
  (is_empty_iff_no_keys ⟨[]⟩).2 rfl 3 ⟨1, 2⟩ idSnap

/-- C8 counterexample to the claim as stated: after the single-range
cycle, no buffer holds any group, yet `is_empty` returns `false` (the map
holds the key `1` with an empty group list). -/
theorem is_empty_false_with_no_groups :
    (refreshResult singleRangeEnv ⟨[]⟩).entries = [(1, [])] ∧
    (∀ e ∈ (refreshResult singleRangeEnv ⟨[]⟩).entries, e.2 = []) ∧
    (refreshResult singleRangeEnv ⟨[]⟩).is_empty = false :=
  ⟨rfl, by decide, rfl⟩

/-- A single-range response whose range contains the query selection
builds an EMPTY sibling batch: `combinations(2)` of one element yields no
pairs, so no self-referential single-member group is created. -/
theorem highlightsFor_single (r : AnchorRange) (start «end» : Anchor)
    (snap : Snapshot)
    (hcont : ((Anchor.cmp r.start start snap).isLE &&
        (Anchor.cmp r.«end» «end» snap).isGE) = true) :
    highlightsFor [r] start «end» snap = some [] := by
  unfold highlightsFor
  simp only [List.find?]
  rw [hcont]
  rfl

/-- The per-selection computation on a single-range response containing
the selection: the batch succeeds, with zero groups. -/
theorem selectionBatch_single (provider : BufferId → Anchor → Option (List AnchorRange))
    (fetchSnapshot : BufferId → Snapshot) (sel : BufferId × Anchor × Anchor)
    (r : AnchorRange)
    (hresp : provider sel.1 sel.2.1 = some [r])
    (hcont : ((Anchor.cmp r.start sel.2.1 (fetchSnapshot sel.1)).isLE &&
        (Anchor.cmp r.«end» sel.2.2 (fetchSnapshot sel.1)).isGE) = true) :
    selectionBatch provider fetchSnapshot sel = some (sel.1, []) := by
  unfold selectionBatch
  rw [hresp]
  simp only
  rw [highlightsFor_single r sel.2.1 sel.2.2 (fetchSnapshot sel.1) hcont]

/-- A successful batch is always keyed by its selection's buffer id. -/
theorem selectionBatch_fst (provider : BufferId → Anchor → Option (List AnchorRange))
    (fetchSnapshot : BufferId → Snapshot) (sel : BufferId × Anchor × Anchor)
    (p : BufferId × List LinkGroup)
    (h : selectionBatch provider fetchSnapshot sel = some p) : p.1 = sel.1 := by
  unfold selectionBatch at h
  cases hp : provider sel.1 sel.2.1 with
  | none => rw [hp] at h; exact absurd h (by simp)
  | some edits =>
    rw [hp] at h
    simp only at h
    cases hh : highlightsFor edits sel.2.1 sel.2.2 (fetchSnapshot sel.1) with
    | none => rw [hh] at h; exact absurd h (by simp)
    | some sib =>
      rw [hh] at h
      simp only at h
      injection h with h'
      rw [← h']

/-- `entry(b).or_default().extend(rs)` at the looked-up key itself:
afterwards the key maps to its old value (or `[]`) extended by `rs`. -/
theorem findEntries_insertExtend_self (b : BufferId) (rs : List LinkGroup) :
    ∀ idx, findEntries (insertExtend idx b rs) b =
      some ((findEntries idx b).getD [] ++ rs) := by
  intro idx
  induction idx with
  | nil =>
    show findEntries [(b, rs)] b = _
    rw [findEntries_cons, if_pos rfl]
    rfl
  | cons e rest ih =>
    obtain ⟨k, vs⟩ := e
    by_cases hk : k = b
    · rw [show insertExtend ((k, vs) :: rest) b rs = (k, vs ++ rs) :: rest from by
        simp [insertExtend, hk]]
      rw [findEntries_cons, if_pos hk, findEntries_cons, if_pos hk]
      rfl
    · rw [show insertExtend ((k, vs) :: rest) b rs =
        (k, vs) :: insertExtend rest b rs from by simp [insertExtend, hk]]
      rw [findEntries_cons, if_neg hk, findEntries_cons, if_neg hk, ih]

/-- Once a key is present, it stays present across the install loop. -/
theorem findEntries_installFold_preserve (b : BufferId) :
    ∀ (batches : List (Option (BufferId × List LinkGroup))) idx vs,
      findEntries idx b = some vs →
      ∃ vs', findEntries (batches.foldl installStep idx) b = some vs' := by
  intro batches
  induction batches with
  | nil => intro idx vs h; exact ⟨vs, h⟩
  | cons ob rest ih =>
    intro idx vs h
    rw [List.foldl_cons]
    match ob with
    | none => exact ih idx vs h
    | some (b', rs') =>
      show ∃ vs', findEntries
        (rest.foldl installStep (insertExtend idx b' rs')) b = some vs'
      by_cases hb : b' = b
      · subst hb
        exact ih _ _ (findEntries_insertExtend_self b' rs' idx)
      · exact ih _ vs (by rw [findEntries_insertExtend_ne b' rs' b hb idx]; exact h)

/-- Any successful batch makes its buffer key present in the installed
index — even a batch with zero groups. -/
theorem findEntries_installFold_mem (b : BufferId) :
    ∀ (batches : List (Option (BufferId × List LinkGroup))) idx
      (rs : List LinkGroup),
      some (b, rs) ∈ batches →
      ∃ vs, findEntries (batches.foldl installStep idx) b = some vs := by
  intro batches
  induction batches with
  | nil => intro idx rs h; simp at h
  | cons ob rest ih =>
    intro idx rs h
    rw [List.foldl_cons]
    rcases List.mem_cons.mp h with hEq | h'
    · rw [← hEq]
      show ∃ vs, findEntries
        (rest.foldl installStep (insertExtend idx b rs)) b = some vs
      exact findEntries_installFold_preserve b rest _ _
        (findEntries_insertExtend_self b rs idx)
    · exact ih _ rs h'

/-- When every batch keyed by `b` carries zero groups, `b`'s entry list in
the installed index is empty (absent key or empty list). -/
theorem findEntries_installFold_empty (b : BufferId) :
    ∀ (batches : List (Option (BufferId × List LinkGroup))) idx,
      (∀ ob ∈ batches, ∀ rs, ob = some (b, rs) → rs = []) →
      (findEntries idx b = none ∨ findEntries idx b = some []) →
      (findEntries (batches.foldl installStep idx) b = none ∨
        findEntries (batches.foldl installStep idx) b = some []) := by
  intro batches
  induction batches with
  | nil => intro idx _ h; exact h
  | cons ob rest ih =>
    intro idx hall h
    rw [List.foldl_cons]
    have hall' : ∀ ob' ∈ rest, ∀ rs, ob' = some (b, rs) → rs = [] :=
      fun ob' hob' => hall ob' (List.mem_cons_of_mem _ hob')
    match ob with
    | none => exact ih idx hall' h
    | some (b', rs') =>
      show (findEntries (rest.foldl installStep (insertExtend idx b' rs')) b = none ∨
        findEntries (rest.foldl installStep (insertExtend idx b' rs')) b = some [])
      by_cases hb : b' = b
      · subst hb
        have hrs : rs' = [] := hall (some (b', rs')) (List.mem_cons_self _ _) rs' rfl
        subst hrs
        apply ih _ hall'
        right
        rw [findEntries_insertExtend_self b' [] idx]
        rcases h with h | h <;> simp [h]
      · apply ih _ hall'
        rw [findEntries_insertExtend_ne b' rs' b hb idx]
        exact h

/-- C10: for EVERY cycle reaching the install and EVERY applicable
selection whose provider answers with exactly one range containing it, the
constructed batch succeeds with ZERO link groups (no self-referential
single-member group); and when every applicable selection on that buffer
receives such a single-range response, the merge still inserts the buffer
key with an empty entry list, so `is_empty` is `false` afterwards although
no group is stored for it and every `get` on that buffer answers `none`. -/
theorem single_range_response_empty_entry (env : RefreshEnv)
    (st : LinkedEditingRanges) (apps : List (BufferId × Anchor × Anchor))
    (h1 : env.pendingRenameAtStart = false)
    (h2 : env.hasProject = true)
    (h3 : collectGo env.textAnchorForPosition env.selections = some apps)
    (h4 : apps ≠ [])
    (h5 : env.pendingRenameAtInstall = false)
    (sel : BufferId × Anchor × Anchor) (hsel : sel ∈ apps)
    (hall : ∀ s ∈ apps, s.1 = sel.1 → ∃ r : AnchorRange,
        env.linkedEdit s.1 s.2.1 = some [r] ∧
        ((Anchor.cmp r.start s.2.1 (env.fetchSnapshot s.1)).isLE &&
         (Anchor.cmp r.«end» s.2.2 (env.fetchSnapshot s.1)).isGE) = true) :
    selectionBatch env.linkedEdit env.fetchSnapshot sel = some (sel.1, []) ∧
    (refreshResult env st).find sel.1 = some [] ∧
    (refreshResult env st).is_empty = false ∧
    (∀ r' s', (refreshResult env st).get sel.1 r' s' = none) := by
  obtain ⟨r, hresp, hcont⟩ := hall sel hsel rfl
  have hbatch : selectionBatch env.linkedEdit env.fetchSnapshot sel =
      some (sel.1, []) :=
    selectionBatch_single env.linkedEdit env.fetchSnapshot sel r hresp hcont
  have hempty : ∀ ob ∈ apps.map (selectionBatch env.linkedEdit env.fetchSnapshot),
      ∀ rs, ob = some (sel.1, rs) → rs = [] := by
    intro ob hob rs hEq
    obtain ⟨s, hs, hsb⟩ := List.mem_map.mp hob
    rw [hEq] at hsb
    have hkey : ((sel.1, rs) : BufferId × List LinkGroup).1 = s.1 :=
      selectionBatch_fst _ _ s _ hsb
    obtain ⟨r', hresp', hcont'⟩ := hall s hs hkey.symm
    have hsb' := selectionBatch_single env.linkedEdit env.fetchSnapshot s r'
      hresp' hcont'
    have hEq2 : some ((s.1 : BufferId), ([] : List LinkGroup)) =
        some (sel.1, rs) := by rw [← hsb', hsb]
    injection hEq2 with h'
    exact (congrArg Prod.snd h').symm
  have hmem : some (sel.1, ([] : List LinkGroup)) ∈
      apps.map (selectionBatch env.linkedEdit env.fetchSnapshot) := by
    rw [← hbatch]
    exact List.mem_map_of_mem _ hsel
  obtain ⟨vs, hvs⟩ := findEntries_installFold_mem sel.1
    (apps.map (selectionBatch env.linkedEdit env.fetchSnapshot)) [] [] hmem
  have hinstall : findEntries (installBatches (apps.map
      (selectionBatch env.linkedEdit env.fetchSnapshot))) sel.1 = some [] := by
    rcases findEntries_installFold_empty sel.1
        (apps.map (selectionBatch env.linkedEdit env.fetchSnapshot)) []
        hempty (Or.inl rfl) with h | h
    · rw [h] at hvs
      exact absurd hvs (by simp)
    · exact h
  have hfind : (refreshResult env st).find sel.1 = some [] := by
    unfold refreshResult
    rw [refresh_install_branch env st apps h1 h2 h3 h4 h5]
    show (⟨resortAll (installBatches (apps.map
        (selectionBatch env.linkedEdit env.fetchSnapshot)))
        env.mergeSnapshot⟩ : LinkedEditingRanges).find sel.1 = some []
    unfold LinkedEditingRanges.find
    rw [findEntries_resortAll, hinstall]
    cases env.mergeSnapshot sel.1 with
    | none => rfl
    | some s => rfl
  refine ⟨hbatch, hfind, ?_, ?_⟩
  · cases hent : (refreshResult env st).entries with
    | nil =>
      exfalso
      have hnone : (refreshResult env st).find sel.1 = none := by
        unfold LinkedEditingRanges.find findEntries
        rw [hent]
        rfl
      rw [hfind] at hnone
      exact absurd hnone (by simp)
    | cons e rest =>
      show ((refreshResult env st).entries).isEmpty = false
      rw [hent]
      rfl
  · intro r' s'
    exact get_empty_entries _ sel.1 r' s' hfind

/-- Witness for `single_range_response_empty_entry` on the concrete
single-cursor, single-range cycle. -/
theorem single_range_response_empty_entry_witness :
    selectionBatch singleRangeEnv.linkedEdit singleRangeEnv.fetchSnapshot
      (1, 2, 2) = some (1, []) ∧
    (refreshResult singleRangeEnv ⟨[]⟩).find 1 = some [] ∧
    (refreshResult singleRangeEnv ⟨[]⟩).is_empty = false ∧
    (∀ r' s', (refreshResult singleRangeEnv ⟨[]⟩).get 1 r' s' = none) := by
  refine single_range_response_empty_entry singleRangeEnv ⟨[]⟩ [(1, 2, 2)]
    rfl rfl rfl (by decide) rfl (1, 2, 2) (by decide) ?_
  intro s hs _
  have hsEq : s = (1, 2, 2) := by simpa using hs
  subst hsEq
  exact ⟨⟨1, 5⟩, rfl, by decide⟩

/-! ### The sibling graph built by the pairwise-combination loop -/

theorem getSibs_insertSib (key val x : AnchorRange) :
    ∀ m, getSibs (insertSib m key val) x =
      if key = x then getSibs m x ++ [val] else getSibs m x := by
  intro m
  induction m with
  | nil => by_cases hkey : key = x <;> simp [insertSib, getSibs, hkey]
  | cons e rest ih =>
    obtain ⟨k, vs⟩ := e
    by_cases hk : k = key <;> by_cases hx : k = x <;> by_cases hkey : key = x <;>
      simp_all [insertSib, getSibs]

theorem getSibs_foldl_stepSib (x : AnchorRange) :
    ∀ (ps : List (AnchorRange × AnchorRange))
      (m : List (AnchorRange × List AnchorRange)),
      getSibs (ps.foldl stepSib m) x = getSibs m x ++ occs x ps := by
  intro ps
  induction ps with
  | nil => intro m; simp [occs]
  | cons p ps ih =>
    intro m
    rw [List.foldl_cons, ih]
    show getSibs (stepSib m p) x ++ occs x ps = _
    unfold stepSib
    rw [getSibs_insertSib, getSibs_insertSib]
    simp only [occs]
    by_cases h2 : p.2 = x <;> by_cases h1 : p.1 = x <;>
      simp [h1, h2, List.append_assoc]

theorem mem_keysOf_insertSib (key val x : AnchorRange) :
    ∀ m, x ∈ keysOf (insertSib m key val) ↔ x ∈ keysOf m ∨ x = key := by
  intro m
  induction m with
  | nil => simp [insertSib, keysOf, eq_comm]
  | cons e rest ih =>
    obtain ⟨k, vs⟩ := e
    by_cases hk : k = key <;> simp_all [insertSib, keysOf, List.mem_cons] <;> tauto

theorem nodup_keysOf_insertSib (key val : AnchorRange) :
    ∀ m, (keysOf m).Nodup → (keysOf (insertSib m key val)).Nodup := by
  intro m
  induction m with
  | nil => intro _; simp [insertSib, keysOf]
  | cons e rest ih =>
    obtain ⟨k, vs⟩ := e
    intro hnd
    obtain ⟨hk0, hnd'⟩ := List.nodup_cons.mp hnd
    by_cases hk : k = key
    · rw [show insertSib ((k, vs) :: rest) key val = (k, vs ++ [val]) :: rest from
        by simp [insertSib, hk]]
      exact List.nodup_cons.mpr ⟨hk0, hnd'⟩
    · rw [show insertSib ((k, vs) :: rest) key val =
        (k, vs) :: insertSib rest key val from by simp [insertSib, hk]]
      refine List.nodup_cons.mpr ⟨?_, ih hnd'⟩
      intro hmem
      rcases (mem_keysOf_insertSib key val k rest).mp hmem with h | h
      · exact hk0 h
      · exact hk h

theorem mem_keysOf_foldl_stepSib (x : AnchorRange) :
    ∀ (ps : List (AnchorRange × AnchorRange))
      (m : List (AnchorRange × List AnchorRange)),
      x ∈ keysOf (ps.foldl stepSib m) ↔
        x ∈ keysOf m ∨ ∃ p ∈ ps, x = p.1 ∨ x = p.2 := by
  intro ps
  induction ps with
  | nil => intro m; simp
  | cons p ps ih =>
    intro m
    rw [List.foldl_cons, ih]
    unfold stepSib
    rw [mem_keysOf_insertSib, mem_keysOf_insertSib]
    simp only [List.mem_cons]
    constructor
    · rintro (((h | h) | h) | ⟨q, hq, h⟩)
      · exact Or.inl h
      · exact Or.inr ⟨p, Or.inl rfl, Or.inl h⟩
      · exact Or.inr ⟨p, Or.inl rfl, Or.inr h⟩
      · exact Or.inr ⟨q, Or.inr hq, h⟩
    · rintro (h | ⟨q, (rfl | hq), h⟩)
      · exact Or.inl (Or.inl (Or.inl h))
      · rcases h with h | h
        · exact Or.inl (Or.inl (Or.inr h))
        · exact Or.inl (Or.inr h)
      · exact Or.inr ⟨q, hq, h⟩

theorem nodup_keysOf_foldl_stepSib :
    ∀ (ps : List (AnchorRange × AnchorRange))
      (m : List (AnchorRange × List AnchorRange)),
      (keysOf m).Nodup → (keysOf (ps.foldl stepSib m)).Nodup := by
  intro ps
  induction ps with
  | nil => intro m h; exact h
  | cons p ps ih =>
    intro m h
    rw [List.foldl_cons]
    exact ih _ (nodup_keysOf_insertSib _ _ _ (nodup_keysOf_insertSib _ _ _ h))

theorem getSibs_of_mem :
    ∀ (m : List (AnchorRange × List AnchorRange)), (keysOf m).Nodup →
      ∀ k v, (k, v) ∈ m → getSibs m k = v := by
  intro m
  induction m with
  | nil => intro _ k v h; simp at h
  | cons e rest ih =>
    obtain ⟨k0, v0⟩ := e
    intro hnd k v hmem
    obtain ⟨hk0, hnd'⟩ := List.nodup_cons.mp hnd
    rcases List.mem_cons.mp hmem with heq | hmem'
    · injection heq with h1 h2
      show (if k0 = k then v0 else getSibs rest k) = v
      rw [if_pos h1.symm]
      exact h2.symm
    · have hne : k0 ≠ k := by
        intro hEq
        apply hk0
        rw [hEq]
        have hmap : Prod.fst (k, v) ∈ List.map Prod.fst rest :=
          List.mem_map_of_mem Prod.fst hmem'
        exact hmap
      show (if k0 = k then v0 else getSibs rest k) = v
      rw [if_neg hne]
      exact ih hnd' k v hmem'

theorem mem_of_key :
    ∀ (m : List (AnchorRange × List AnchorRange)) (k : AnchorRange),
      k ∈ keysOf m → (k, getSibs m k) ∈ m := by
  intro m
  induction m with
  | nil => intro k h; simp [keysOf] at h
  | cons e rest ih =>
    obtain ⟨k0, v0⟩ := e
    intro k hk
    by_cases h : k0 = k
    · subst h
      show (k0, if k0 = k0 then v0 else getSibs rest k0) ∈ _
      rw [if_pos rfl]
      exact List.mem_cons_self _ _
    · have hk' : k ∈ keysOf rest := by
        rcases List.mem_cons.mp hk with hEq | hmem
        · exact absurd hEq.symm h
        · exact hmem
      show (k, if k0 = k then v0 else getSibs rest k) ∈ _
      rw [if_neg h]
      exact List.mem_cons_of_mem _ (ih k hk')

theorem mem_pairs (p : AnchorRange × AnchorRange) :
    ∀ l : List AnchorRange, p ∈ pairs l → p.1 ∈ l ∧ p.2 ∈ l := by
  intro l
  induction l with
  | nil => intro h; simp [pairs] at h
  | cons a l ih =>
    intro hp
    rw [show pairs (a :: l) = l.map (fun y => (a, y)) ++ pairs l from rfl] at hp
    rcases List.mem_append.mp hp with h | h
    · obtain ⟨y, hy, hEq⟩ := List.mem_map.mp h
      rw [← hEq]
      exact ⟨List.mem_cons_self _ _, List.mem_cons_of_mem _ hy⟩
    · obtain ⟨h1, h2⟩ := ih h
      exact ⟨List.mem_cons_of_mem _ h1, List.mem_cons_of_mem _ h2⟩

theorem exists_pair (l : List AnchorRange) (hlen : 2 ≤ l.length)
    (x : AnchorRange) (hx : x ∈ l) :
    ∃ p ∈ pairs l, x = p.1 ∨ x = p.2 := by
  match l, hlen with
  | a :: b :: rest, _ =>
    rcases List.mem_cons.mp hx with rfl | hx'
    · exact ⟨(x, b), List.mem_append_left _
        (List.mem_map_of_mem _ (List.mem_cons_self _ _)), Or.inl rfl⟩
    · exact ⟨(a, x), List.mem_append_left _ (List.mem_map_of_mem _ hx'),
        Or.inr rfl⟩

theorem occs_append (x : AnchorRange) :
    ∀ P Q, occs x (P ++ Q) = occs x P ++ occs x Q := by
  intro P Q
  induction P with
  | nil => simp [occs]
  | cons p ps ih => simp [occs, ih, List.append_assoc]

theorem occs_map_self (x : AnchorRange) :
    ∀ ys : List AnchorRange, x ∉ ys →
      occs x (ys.map (fun y => (x, y))) = ys := by
  intro ys
  induction ys with
  | nil => intro _; rfl
  | cons y ys ih =>
    intro hx
    have hyx : y ≠ x := fun h => hx (List.mem_cons.mpr (Or.inl h.symm))
    simp [occs, ih (fun h => hx (List.mem_cons_of_mem _ h)), hyx]

theorem occs_map_other (x z : AnchorRange) (hzx : z ≠ x) :
    ∀ ys : List AnchorRange, ys.Nodup →
      occs x (ys.map (fun y => (z, y))) = if x ∈ ys then [z] else [] := by
  intro ys
  induction ys with
  | nil => intro _; simp [occs]
  | cons y ys ih =>
    intro hnd
    obtain ⟨hy, hnd'⟩ := List.nodup_cons.mp hnd
    rw [List.map_cons]
    simp only [occs]
    rw [if_neg hzx]
    by_cases hyx : y = x
    · subst hyx
      rw [if_pos rfl, ih hnd', if_neg hy, if_pos (List.mem_cons_self _ _)]
      simp
    · rw [if_neg hyx, ih hnd']
      by_cases hmem : x ∈ ys
      · rw [if_pos hmem, if_pos (List.mem_cons_of_mem _ hmem)]
        simp
      · rw [if_neg hmem, if_neg (fun hc => by
          rcases List.mem_cons.mp hc with h | h
          · exact hyx h.symm
          · exact hmem h)]
        simp

theorem occs_pairs (x : AnchorRange) :
    ∀ l : List AnchorRange, l.Nodup →
      occs x (pairs l) = if x ∈ l then l.filter (fun y => y ≠ x) else [] := by
  intro l
  induction l with
  | nil => intro _; simp [pairs, occs]
  | cons z zs ih =>
    intro hnd
    obtain ⟨hz, hnd'⟩ := List.nodup_cons.mp hnd
    rw [show pairs (z :: zs) = zs.map (fun y => (z, y)) ++ pairs zs from rfl,
      occs_append]
    by_cases hzx : z = x
    · subst hzx
      rw [occs_map_self z zs hz, ih hnd', if_neg hz,
        if_pos (List.mem_cons_self _ _)]
      have hfz : zs.filter (fun y => y ≠ z) = zs :=
        List.filter_eq_self.mpr (fun a ha => by
          simp only [decide_eq_true_eq]
          exact fun h => hz (h ▸ ha))
      rw [List.filter_cons, if_neg (by simp), hfz]
      simp
    · rw [occs_map_other x z hzx zs hnd', ih hnd', List.filter_cons]
      by_cases hmem : x ∈ zs
      · rw [if_pos hmem, if_pos hmem, if_pos (List.mem_cons_of_mem _ hmem)]
        simp [hzx]
      · rw [if_neg hmem, if_neg hmem, if_neg (fun hc => by
          rcases List.mem_cons.mp hc with h | h
          · exact hzx h.symm
          · exact hmem h)]
        simp

theorem filter_ne_length (x : AnchorRange) :
    ∀ l : List AnchorRange, l.Nodup → x ∈ l →
      (l.filter (fun y => y ≠ x)).length = l.length - 1 := by
  intro l
  induction l with
  | nil => intro _ h; simp at h
  | cons z zs ih =>
    intro hnd hx
    obtain ⟨hz, hnd'⟩ := List.nodup_cons.mp hnd
    rcases List.mem_cons.mp hx with rfl | hx'
    · have hfz : zs.filter (fun y => y ≠ x) = zs :=
        List.filter_eq_self.mpr (fun a ha => by
          simp only [decide_eq_true_eq]
          exact fun h => hz (h ▸ ha))
      rw [List.filter_cons, if_neg (by simp), hfz]
      simp
    · have hzx : z ≠ x := fun h => hz (h ▸ hx')
      have hpos : 0 < zs.length := List.length_pos.mpr (by
        rintro rfl
        simp at hx')
      rw [List.filter_cons]
      rw [if_pos (by simp [hzx])]
      simp only [List.length_cons]
      rw [ih hnd' hx']
      omega

/-! ### The stable sort used at batch construction and install time -/

theorem orderedInsert_perm (le : LinkGroup → LinkGroup → Bool) (a : LinkGroup) :
    ∀ l, (orderedInsert le a l).Perm (a :: l) := by
  intro l
  induction l with
  | nil => exact List.Perm.refl _
  | cons b l ih =>
    simp only [orderedInsert]
    by_cases h : le a b = true
    · rw [if_pos h]
    · rw [if_neg h]
      exact (ih.cons b).trans (List.Perm.swap a b l)

theorem sortByCmp_perm (le : LinkGroup → LinkGroup → Bool) :
    ∀ l, (sortByCmp le l).Perm l := by
  intro l
  induction l with
  | nil => exact List.Perm.refl _
  | cons a l ih =>
    simp only [sortByCmp]
    exact (orderedInsert_perm le a _).trans (ih.cons a)

theorem orderedInsert_pairwise (le : LinkGroup → LinkGroup → Bool)
    (htot : ∀ a b, le a b = true ∨ le b a = true)
    (htrans : ∀ a b c, le a b = true → le b c = true → le a c = true)
    (a : LinkGroup) :
    ∀ l, l.Pairwise (fun x y => le x y = true) →
      (orderedInsert le a l).Pairwise (fun x y => le x y = true) := by
  intro l
  induction l with
  | nil => intro _; simp [orderedInsert]
  | cons b l ih =>
    intro hp
    obtain ⟨hb, hl⟩ := List.pairwise_cons.mp hp
    simp only [orderedInsert]
    by_cases h : le a b = true
    · rw [if_pos h]
      refine List.pairwise_cons.mpr ⟨?_, hp⟩
      intro x hx
      rcases List.mem_cons.mp hx with rfl | hx'
      · exact h
      · exact htrans a b x h (hb x hx')
    · rw [if_neg h]
      refine List.pairwise_cons.mpr ⟨?_, ih hl⟩
      intro x hx
      have hx' : x = a ∨ x ∈ l := by
        simpa [List.mem_cons] using (orderedInsert_perm le a l).mem_iff.mp hx
      rcases hx' with rfl | hx'
      · rcases htot x b with h1 | h1
        · exact absurd h1 h
        · exact h1
      · exact hb x hx'

theorem sortByCmp_pairwise (le : LinkGroup → LinkGroup → Bool)
    (htot : ∀ a b, le a b = true ∨ le b a = true)
    (htrans : ∀ a b c, le a b = true → le b c = true → le a c = true) :
    ∀ l, (sortByCmp le l).Pairwise (fun x y => le x y = true) := by
  intro l
  induction l with
  | nil => simp [sortByCmp]
  | cons a l ih =>
    simp only [sortByCmp]
    exact orderedInsert_pairwise le htot htrans a _ ih

theorem rangeLe_total (s : Snapshot) (x y : AnchorRange) :
    (AnchorRange.cmp x y s).isLE = true ∨ (AnchorRange.cmp y x s).isLE = true := by
  rw [rangeCmp_isLE, rangeCmp_isLE]
  omega

theorem rangeLe_trans (s : Snapshot) (x y z : AnchorRange)
    (h1 : (AnchorRange.cmp x y s).isLE = true)
    (h2 : (AnchorRange.cmp y z s).isLE = true) :
    (AnchorRange.cmp x z s).isLE = true := by
  rw [rangeCmp_isLE] at h1 h2 ⊢
  omega

/-! ### Characterization of the sibling graph -/

theorem buildSibs_nodup_keys (edits : List AnchorRange) :
    (keysOf (buildSibs edits)).Nodup :=
  nodup_keysOf_foldl_stepSib (pairs edits) [] (by simp [keysOf])

theorem buildSibs_mem_keys (edits : List AnchorRange)
    (hlen : 2 ≤ edits.length) (x : AnchorRange) :
    x ∈ keysOf (buildSibs edits) ↔ x ∈ edits := by
  unfold buildSibs
  rw [mem_keysOf_foldl_stepSib]
  constructor
  · rintro (h | ⟨p, hp, hx⟩)
    · simp [keysOf] at h
    · obtain ⟨h1, h2⟩ := mem_pairs p edits hp
      rcases hx with rfl | rfl
      · exact h1
      · exact h2
  · intro hx
    obtain ⟨p, hp, hor⟩ := exists_pair edits hlen x hx
    exact Or.inr ⟨p, hp, hor⟩

theorem buildSibs_getSibs (edits : List AnchorRange) (hnd : edits.Nodup)
    (x : AnchorRange) (hx : x ∈ edits) :
    getSibs (buildSibs edits) x = edits.filter (fun y => y ≠ x) := by
  unfold buildSibs
  rw [getSibs_foldl_stepSib, occs_pairs x edits hnd, if_pos hx]
  rfl

/-- C5: for a provider response of `n >= 2` distinct ranges at least one of
which contains the query selection, the per-selection computation returns
the sorted batch; in that batch every response range appears as the
primary of exactly one group, every group's primary is a response range
with exactly the other `n - 1` ranges among its siblings (so any two
distinct response ranges appear in each other's sibling lists), and the
batch is sorted by `primary.start` under the fetch-time snapshot. -/
theorem clique_completeness (edits : List AnchorRange) (snap : Snapshot)
    (start «end» : Anchor)
    (hnd : edits.Nodup) (hlen : 2 ≤ edits.length)
    (hfound : (edits.find? (fun range =>
        (Anchor.cmp range.start start snap).isLE &&
        (Anchor.cmp range.«end» «end» snap).isGE)).isSome = true) :
    highlightsFor edits start «end» snap =
      some (sortBatch (buildSibs edits) snap) ∧
    (∀ r ∈ edits,
        ((sortBatch (buildSibs edits) snap).map Prod.fst).count r = 1) ∧
    (∀ p ∈ sortBatch (buildSibs edits) snap,
        p.1 ∈ edits ∧ p.2.length = edits.length - 1 ∧
        ∀ b ∈ edits, b ≠ p.1 → b ∈ p.2) ∧
    (sortBatch (buildSibs edits) snap).Pairwise
      (fun x y => (Anchor.cmp x.1.start y.1.start snap).isLE = true) := by
  have hperm : (sortBatch (buildSibs edits) snap).Perm (buildSibs edits) :=
    sortByCmp_perm _ _
  refine ⟨?_, ?_, ?_, ?_⟩
  · unfold highlightsFor
    obtain ⟨r, hr⟩ := Option.isSome_iff_exists.mp hfound
    rw [hr]
  · intro r hr
    have hkeys : ((sortBatch (buildSibs edits) snap).map Prod.fst).Perm
        (keysOf (buildSibs edits)) := hperm.map Prod.fst
    rw [hkeys.count_eq]
    exact List.count_eq_one_of_mem (buildSibs_nodup_keys edits)
      ((buildSibs_mem_keys edits hlen r).mpr hr)
  · intro p hp
    have hpb : p ∈ buildSibs edits := hperm.mem_iff.mp hp
    have hkey : p.1 ∈ keysOf (buildSibs edits) := by
      have hmap : Prod.fst p ∈ List.map Prod.fst (buildSibs edits) :=
        List.mem_map_of_mem Prod.fst hpb
      exact hmap
    have hkey' : p.1 ∈ edits := (buildSibs_mem_keys edits hlen p.1).mp hkey
    have hval : p.2 = edits.filter (fun y => y ≠ p.1) := by
      have h1 : getSibs (buildSibs edits) p.1 = p.2 :=
        getSibs_of_mem (buildSibs edits) (buildSibs_nodup_keys edits) p.1 p.2
          (by rw [show (p.1, p.2) = p from rfl]; exact hpb)
      rw [← h1, buildSibs_getSibs edits hnd p.1 hkey']
    refine ⟨hkey', ?_, ?_⟩
    · rw [hval]
      exact filter_ne_length p.1 edits hnd hkey'
    · intro b hb hbne
      rw [hval]
      exact List.mem_filter.mpr ⟨hb, by simp [hbne]⟩
  · have hsorted := sortByCmp_pairwise
      (fun lhs rhs => (AnchorRange.cmp lhs.1 rhs.1 snap).isLE)
      (fun a b => rangeLe_total snap a.1 b.1)
      (fun a b c => rangeLe_trans snap a.1 b.1 c.1)
      (buildSibs edits)
    refine hsorted.imp ?_
    intro a b hab
    rw [rangeCmp_isLE] at hab
    rw [anchorCmp_isLE]
    omega

/-- Witness for `clique_completeness` on a concrete three-range response
(query `[10,11]` is contained in the response range `[9,12]`). -/
theorem clique_completeness_witness :
    cliqueEdits.Nodup ∧ 2 ≤ cliqueEdits.length ∧
    highlightsFor cliqueEdits 10 11 idSnap =
      some (sortBatch (buildSibs cliqueEdits) idSnap) ∧
    (∀ r ∈ cliqueEdits,
        ((sortBatch (buildSibs cliqueEdits) idSnap).map Prod.fst).count r = 1) := by
  have h := clique_completeness cliqueEdits idSnap 10 11 (by decide) (by decide)
    (by decide)
  exact ⟨by decide, by decide, h.1, h.2.1⟩

end LinkedEditing
